import Mathlib

set_option maxRecDepth 40000

/-!
Shallow embedding of the gcra package (gcra.go).

Integers: Go `int64` arithmetic wraps on overflow; `wrap` applies the
two's-complement reduction exactly where the Go source performs an `int64`
addition, subtraction or multiplication.

Floats: Go's `roundDiv(a, b)` is `int64(math.Round(float64(a) / float64(b)))`.
float64 is modelled as a dyadic rational rounded to 53 significant bits with an
unbounded exponent; this coincides with IEEE-754 binary64 on every magnitude in
[2^-1022, 2^1024), an interval that contains every nonzero value reachable from
int64 operands.  The model is implemented below purely with integer arithmetic
(mantissa/exponent pairs) so that it evaluates inside the kernel; a
rational-valued specification `flQ`/`mathRoundQ` of the same rounding is given
further down and proved equal to the integer implementation, and all abstract
reasoning happens on that side.

Division by zero produces NaN or an infinity in Go, and converting those to
int64 is implementation-defined (it differs between amd64, arm64 and riscv64);
the model maps that case to 0.  No theorem below depends on that value.
-/

/-- Fuel-driven floor of the base-2 logarithm on naturals; one halving per
fuel step, so any fuel of at least log2 n is enough. -/
def natLog2F : ℕ → ℕ → ℕ
  | 0, _ => 0
  | f + 1, m => if m ≤ 1 then 0 else natLog2F f (m / 2) + 1

/-- Floor of log2 of a natural number; exact for every n < 2^300. -/
def natLog2 (n : ℕ) : ℕ := natLog2F 300 n

/-- Nearest integer to a / b for b ≥ 1, ties to the even integer
(IEEE-754 round-to-nearest-even at integer granularity). -/
def rnearInt (a b : ℤ) : ℤ :=
  let q := a / b
  let r := a % b
  if 2 * r < b then q else if b < 2 * r then q + 1 else if q % 2 = 0 then q else q + 1

/-- Nearest integer to a / b for a ≥ 0, b ≥ 1, ties rounded up
(= away from zero for nonnegative arguments), as in Go's math.Round. -/
def rHalfAwayPos (a b : ℤ) : ℤ :=
  if 2 * (a % b) < b then a / b else a / b + 1

/-- Floor of log2 of the positive rational a / b (a, b ≥ 1), computed from the
integer logarithms of a and b and one comparison; exact while a, b < 2^300. -/
def intLog2Q (a b : ℤ) : ℤ :=
  let c : ℤ := (natLog2 a.toNat : ℤ) - (natLog2 b.toNat : ℤ)
  if 0 ≤ c then (if b * 2 ^ c.toNat ≤ a then c else c - 1)
  else (if b ≤ a * 2 ^ (-c).toNat then c else c - 1)

/-- Round the positive rational a / b (a, b ≥ 1) to 53 significant bits,
round-to-nearest-even, returned as a mantissa/exponent pair (M, E) whose value
is M * 2^E with 2^52 ≤ M ≤ 2^53. -/
def round53 (a b : ℤ) : ℤ × ℤ :=
  let e := intLog2Q a b
  let s := 52 - e
  let M := if 0 ≤ s then rnearInt (a * 2 ^ s.toNat) b else rnearInt a (b * 2 ^ (-s).toNat)
  (M, e - 52)

/-- int64(math.Round(float64(a) / float64(b))) for positive a, b: convert both
operands to float64, divide with correct rounding, then round half away from
zero to an integer. -/
def roundDivPos (a b : ℤ) : ℤ :=
  let p1 := round53 a 1
  let p2 := round53 b 1
  let q := round53 p1.1 p2.1
  let F := q.2 + p1.2 - p2.2
  if 0 ≤ F then q.1 * 2 ^ F.toNat else rHalfAwayPos q.1 (2 ^ (-F).toNat)

/-- Go's roundDiv: int64(math.Round(float64(a) / float64(b))).  Signs factor
out exactly (both conversion and division round symmetrically, and math.Round
rounds ties away from zero).  A zero divisor is mapped to 0 (see header). -/
def roundDiv (a b : ℤ) : ℤ :=
  if a = 0 ∨ b = 0 then 0
  else if (0 < a ∧ 0 < b) ∨ (a < 0 ∧ b < 0) then roundDivPos |a| |b|
  else -roundDivPos |a| |b|

/-- Modelled from the spec for claim C5, which is missing from the code as a
separate entity: the exact nearest-integer value of the rational a / b with
ties rounded away from zero ("nearest-integer division; ties round away from
zero"), computed with exact integer arithmetic instead of float64. -/
def exactRoundDiv (a b : ℤ) : ℤ :=
  if b = 0 then 0
  else if (0 < a ∧ 0 < b) ∨ (a < 0 ∧ b < 0) then rHalfAwayPos |a| |b|
  else -rHalfAwayPos |a| |b|

/-- Two's-complement reduction into [-2^63, 2^63): Go's int64 overflow
behavior, applied wherever the source performs int64 arithmetic. -/
def wrap (x : ℤ) : ℤ := (x + 2 ^ 63) % 2 ^ 64 - 2 ^ 63

/-- GenerateRaw from gcra.go: tat = now + emissionInterval * (burst - count). -/
def GenerateRaw (now count burst rate period : ℤ) : ℤ :=
  wrap (now + wrap (roundDiv period rate * wrap (burst - count)))

/-- ComputeRaw from gcra.go.  Returns (newTAT, limited, remaining, retryIn,
resetIn).  The shadowed `tat` of the Go source ("reset TAT if smaller than
now") is the let-shadowing below. -/
def ComputeRaw (tat now burst rate period cost : ℤ) : ℤ × Bool × ℤ × ℤ × ℤ :=
  let emissionInterval := roundDiv period rate
  let increment := wrap (emissionInterval * cost)
  let burstOffset := wrap (emissionInterval * burst)
  let tat := if now > tat then now else tat
  let newTAT := wrap (tat + increment)
  let allowAt := wrap (newTAT - burstOffset)
  let diff := wrap (now - allowAt)
  let remaining := roundDiv diff emissionInterval
  if remaining < 0 then
    (tat, true, roundDiv (wrap (now - wrap (tat - burstOffset))) emissionInterval,
      wrap (diff * -1), wrap (tat - now))
  else if remaining = 0 ∧ increment ≤ 0 then
    (tat, true, 0, 0, wrap (tat - now))
  else
    (newTAT, false, remaining, 0, wrap (newTAT - now))

/-- A Bucket stores the theoretical arrival time as Unix nanoseconds; the Go
`time.Time` round-trips through `UnixNano`, so the model keeps the integer. -/
abbrev Bucket := Int

/-- Options from gcra.go (Period in nanoseconds, as Go's time.Duration). -/
structure Options where
  Burst : ℤ
  Rate : ℤ
  Period : ℤ
deriving DecidableEq

/-- Result from gcra.go (durations in nanoseconds). -/
structure Result where
  Limited : Bool
  Remaining : ℤ
  RetryIn : ℤ
  ResetIn : ℤ
deriving DecidableEq

/-- The two error values of gcra.go. -/
inductive GcraError where
  | invalidParameter
  | costHigherThanBurst
deriving DecidableEq

/-- Generate from gcra.go.  On error Go returns the zero Bucket (the zero
time.Time); no claim depends on that value, the model returns 0. -/
def Generate (now count : ℤ) (opts : Options) : Bucket × Option GcraError :=
  if count < 0 ∨ opts.Burst ≤ 0 ∨ opts.Rate ≤ 0 ∨ opts.Period ≤ 0 then
    (0, some GcraError.invalidParameter)
  else if opts.Burst < count then
    (0, some GcraError.costHigherThanBurst)
  else
    (GenerateRaw now count opts.Burst opts.Rate opts.Period, none)

/-- Compute from gcra.go: validate, delegate to ComputeRaw, repack. -/
def Compute (now : ℤ) (bucket : Bucket) (cost : ℤ) (opts : Options) :
    Bucket × Result × Option GcraError :=
  if cost < 0 ∨ opts.Burst ≤ 0 ∨ opts.Rate ≤ 0 ∨ opts.Period ≤ 0 then
    (bucket, ⟨false, 0, 0, 0⟩, some GcraError.invalidParameter)
  else if opts.Burst < cost then
    (bucket, ⟨false, 0, 0, 0⟩, some GcraError.costHigherThanBurst)
  else
    let r := ComputeRaw bucket now opts.Burst opts.Rate opts.Period cost
    (r.1, ⟨r.2.1, r.2.2.1, r.2.2.2.1, r.2.2.2.2⟩, none)

/-- ComputeRaw with the int64 wraps removed: used to reason about runs whose
intermediate values stay inside int64. -/
def computeRawZ (tat now burst rate period cost : ℤ) : ℤ × Bool × ℤ × ℤ × ℤ :=
  let emissionInterval := roundDiv period rate
  let increment := emissionInterval * cost
  let burstOffset := emissionInterval * burst
  let tat := if now > tat then now else tat
  let newTAT := tat + increment
  let allowAt := newTAT - burstOffset
  let diff := now - allowAt
  let remaining := roundDiv diff emissionInterval
  if remaining < 0 then
    (tat, true, roundDiv (now - (tat - burstOffset)) emissionInterval, diff * -1, tat - now)
  else if remaining = 0 ∧ increment ≤ 0 then
    (tat, true, 0, 0, tat - now)
  else
    (newTAT, false, remaining, 0, newTAT - now)

/-!
Rational-valued specification of the float64 rounding used by `roundDiv`.
These definitions are the mathematical description (round to nearest even at
53 significant bits, then round half away from zero); they are connected to
the executable integer pipeline above by `roundDiv_eq_spec` and are the basis
of all abstract reasoning about `roundDiv`.
-/

/-- Nearest integer to q, ties to the even integer. -/
def roundNEQ (q : ℚ) : ℤ :=
  if q - ⌊q⌋ < 1 / 2 then ⌊q⌋
  else if 1 / 2 < q - ⌊q⌋ then ⌊q⌋ + 1
  else if ⌊q⌋ % 2 = 0 then ⌊q⌋ else ⌊q⌋ + 1

/-- Round a positive rational to 53 significant bits, nearest-even. -/
def flPosQ (q : ℚ) : ℚ :=
  (roundNEQ (q * 2 ^ (52 - Int.log 2 q)) : ℚ) * 2 ^ (Int.log 2 q - 52)

/-- Round any rational to the nearest float64 value (unbounded exponent). -/
def flQ (q : ℚ) : ℚ :=
  if q < 0 then -flPosQ (-q) else if q = 0 then 0 else flPosQ q

/-- Go math.Round: nearest integer, ties away from zero. -/
def mathRoundQ (q : ℚ) : ℤ :=
  if q < 0 then -⌊-q + 1 / 2⌋ else ⌊q + 1 / 2⌋

theorem roundNEQ_intCast (n : ℤ) : roundNEQ (n : ℚ) = n := by
  simp [roundNEQ, Int.floor_intCast]

theorem roundNEQ_ge_floor (q : ℚ) : ⌊q⌋ ≤ roundNEQ q := by
  unfold roundNEQ
  split_ifs <;> omega

theorem roundNEQ_le_floor_add_one (q : ℚ) : roundNEQ q ≤ ⌊q⌋ + 1 := by
  unfold roundNEQ
  split_ifs <;> omega

theorem mathRoundQ_intCast (n : ℤ) : mathRoundQ (n : ℚ) = n := by
  unfold mathRoundQ
  split_ifs with h
  · have : ⌊-(n : ℚ) + 1 / 2⌋ = -n := by
      rw [show -(n : ℚ) + 1 / 2 = 1 / 2 + (-n : ℤ) by push_cast; ring, Int.floor_add_int]
      norm_num
    omega
  · rw [show (n : ℚ) + 1 / 2 = 1 / 2 + (n : ℤ) by ring, Int.floor_add_int]
    norm_num

theorem mathRoundQ_nonneg {q : ℚ} (h : 0 ≤ q) : 0 ≤ mathRoundQ q := by
  unfold mathRoundQ
  rw [if_neg (by linarith)]
  have : (0 : ℚ) ≤ q + 1 / 2 := by linarith
  exact Int.floor_nonneg.mpr this

theorem mathRoundQ_ge_one {q : ℚ} (h : 1 / 2 ≤ q) : 1 ≤ mathRoundQ q := by
  unfold mathRoundQ
  rw [if_neg (by linarith)]
  exact Int.le_floor.mpr (by push_cast; linarith)

/-- Correctness of the fuel-driven log: fuel at least log2 m is enough. -/
theorem natLog2F_spec (f : ℕ) : ∀ m : ℕ, 1 ≤ m → m < 2 ^ f →
    2 ^ natLog2F f m ≤ m ∧ m < 2 ^ (natLog2F f m + 1) := by
  induction f with
  | zero => intro m h1 h2; simp at h2; omega
  | succ f ih =>
    intro m h1 h2
    rw [natLog2F]
    split_ifs with h
    · have hm : m = 1 := by omega
      subst hm; norm_num
    · have hp : (2 : ℕ) ^ (f + 1) = 2 ^ f * 2 := pow_succ 2 f
      have hm2 : 1 ≤ m / 2 := by omega
      have hm2' : m / 2 < 2 ^ f := by omega
      obtain ⟨l, u⟩ := ih (m / 2) hm2 hm2'
      have hl : (2 : ℕ) ^ (natLog2F f (m / 2) + 1) = 2 ^ natLog2F f (m / 2) * 2 :=
        pow_succ 2 _
      have hu : (2 : ℕ) ^ (natLog2F f (m / 2) + 1 + 1) = 2 ^ (natLog2F f (m / 2) + 1) * 2 :=
        pow_succ 2 _
      constructor
      · omega
      · omega

theorem natLog2_spec {n : ℕ} (h1 : 1 ≤ n) (h2 : n < 2 ^ 300) :
    2 ^ natLog2 n ≤ n ∧ n < 2 ^ (natLog2 n + 1) :=
  natLog2F_spec 300 n h1 h2

/-- Int.log is determined by its two-sided zpow bounds. -/
theorem log_eq_of_bounds {e : ℤ} {q : ℚ} (hq : 0 < q)
    (h1 : (2 : ℚ) ^ e ≤ q) (h2 : q < (2 : ℚ) ^ (e + 1)) : Int.log 2 q = e := by
  have ha : e ≤ Int.log 2 q := (Int.zpow_le_iff_le_log (by norm_num) hq).mp h1
  have hb : Int.log 2 q < e + 1 := by
    by_contra hcon
    push_neg at hcon
    have : (2 : ℚ) ^ (e + 1) ≤ q := (Int.zpow_le_iff_le_log (by norm_num) hq).mpr hcon
    linarith
  omega

/-- Floor of an integer quotient of casts is integer (floor) division. -/
theorem floor_intCast_div {a b : ℤ} (hb : 0 < b) : ⌊(a : ℚ) / (b : ℚ)⌋ = a / b := by
  have h1 := Rat.floor_intCast_div_natCast a b.toNat
  have e2 : ((b.toNat : ℕ) : ℤ) = b := Int.toNat_of_nonneg hb.le
  have e1 : ((b.toNat : ℕ) : ℚ) = (b : ℚ) := by exact_mod_cast e2
  rw [e1, e2] at h1
  exact h1

/-- Fractional part of an integer quotient of casts. -/
theorem fract_intCast_div {a b : ℤ} (hb : 0 < b) :
    (a : ℚ) / b - ((a / b : ℤ) : ℚ) = ((a % b : ℤ) : ℚ) / b := by
  have hbq : (b : ℚ) ≠ 0 := by positivity
  have h := Int.ediv_add_emod a b
  have hq : (a : ℚ) = (b : ℚ) * ((a / b : ℤ) : ℚ) + ((a % b : ℤ) : ℚ) := by exact_mod_cast h.symm
  rw [hq]
  field_simp

theorem rnearInt_eq {a b : ℤ} (hb : 0 < b) : rnearInt a b = roundNEQ ((a : ℚ) / b) := by
  have hbq : (0 : ℚ) < (b : ℚ) := by exact_mod_cast hb
  unfold rnearInt roundNEQ
  rw [floor_intCast_div hb, fract_intCast_div hb]
  have h1 : ((a % b : ℤ) : ℚ) / b < 1 / 2 ↔ 2 * (a % b) < b := by
    rw [div_lt_div_iff hbq (by norm_num)]
    constructor
    · intro h
      have h' : ((2 * (a % b) : ℤ) : ℚ) < ((b : ℤ) : ℚ) := by push_cast; linarith
      exact_mod_cast h'
    · intro h
      have h' : ((2 * (a % b) : ℤ) : ℚ) < ((b : ℤ) : ℚ) := by exact_mod_cast h
      push_cast at h'
      linarith
  have h2 : (1 : ℚ) / 2 < ((a % b : ℤ) : ℚ) / b ↔ b < 2 * (a % b) := by
    rw [div_lt_div_iff (by norm_num) hbq]
    constructor
    · intro h
      have h' : ((b : ℤ) : ℚ) < ((2 * (a % b) : ℤ) : ℚ) := by push_cast; linarith
      exact_mod_cast h'
    · intro h
      have h' : ((b : ℤ) : ℚ) < ((2 * (a % b) : ℤ) : ℚ) := by exact_mod_cast h
      push_cast at h'
      linarith
  simp only [h1, h2]

theorem rHalfAwayPos_eq {a b : ℤ} (ha : 0 ≤ a) (hb : 0 < b) :
    rHalfAwayPos a b = mathRoundQ ((a : ℚ) / b) := by
  have hbq : (0 : ℚ) < (b : ℚ) := by exact_mod_cast hb
  have hq0 : (0 : ℚ) ≤ (a : ℚ) / b := by positivity
  have hr0 : 0 ≤ a % b := Int.emod_nonneg a (by omega)
  have hrb : a % b < b := Int.emod_lt_of_pos a hb
  have hfr0 : (0 : ℚ) ≤ ((a % b : ℤ) : ℚ) / b := by positivity
  have hfr1 : ((a % b : ℤ) : ℚ) / b < 1 := by
    rw [div_lt_one hbq]
    exact_mod_cast hrb
  have hsplit : (a : ℚ) / b = ((a % b : ℤ) : ℚ) / b + ((a / b : ℤ) : ℚ) := by
    have := fract_intCast_div (a := a) hb
    linarith
  have hR : mathRoundQ ((a : ℚ) / b) = ⌊(a : ℚ) / b + 1 / 2⌋ := by
    unfold mathRoundQ
    rw [if_neg (not_lt.mpr hq0)]
  rw [hR, hsplit,
    show ((a % b : ℤ) : ℚ) / b + ((a / b : ℤ) : ℚ) + 1 / 2
      = ((a % b : ℤ) : ℚ) / b + 1 / 2 + ((a / b : ℤ) : ℚ) by ring,
    Int.floor_add_int]
  unfold rHalfAwayPos
  split_ifs with h
  · have hlt : ((a % b : ℤ) : ℚ) / b < 1 / 2 := by
      rw [div_lt_div_iff hbq (by norm_num)]
      have h' : ((2 * (a % b) : ℤ) : ℚ) < ((b : ℤ) : ℚ) := by exact_mod_cast h
      push_cast at h'
      linarith
    have hfl : ⌊((a % b : ℤ) : ℚ) / b + 1 / 2⌋ = 0 := by
      rw [Int.floor_eq_zero_iff]
      constructor
      · linarith
      · linarith
    omega
  · push_neg at h
    have hge : (1 : ℚ) / 2 ≤ ((a % b : ℤ) : ℚ) / b := by
      rw [le_div_iff hbq]
      have h' : ((b : ℤ) : ℚ) ≤ ((2 * (a % b) : ℤ) : ℚ) := by exact_mod_cast h
      push_cast at h'
      linarith
    have hfl : ⌊((a % b : ℤ) : ℚ) / b + 1 / 2⌋ = 1 := by
      rw [Int.floor_eq_iff]
      constructor
      · push_cast
        linarith
      · push_cast
        linarith
    omega

/-- Casting a nonnegative-exponent power of two. -/
theorem cast_two_pow_toNat {n : ℤ} (hn : 0 ≤ n) : ((2 ^ n.toNat : ℤ) : ℚ) = (2 : ℚ) ^ n := by
  push_cast
  rw [← zpow_natCast (2 : ℚ) n.toNat, Int.toNat_of_nonneg hn]

/-- The integer-level quotient log agrees with Int.log for operands ≤ 2^270. -/
theorem intLog2Q_eq_log {a b : ℤ} (ha : 1 ≤ a) (hb : 1 ≤ b)
    (ha2 : a ≤ 2 ^ 270) (hb2 : b ≤ 2 ^ 270) :
    intLog2Q a b = Int.log 2 ((a : ℚ) / b) := by
  have hpow : ((2 ^ 300 : ℕ) : ℤ) = 2 ^ 300 := by push_cast; ring
  have h270 : (2 : ℤ) ^ 270 < 2 ^ 300 := by norm_num
  have haN1 : 1 ≤ a.toNat := by omega
  have haN2 : a.toNat < 2 ^ 300 := by omega
  have hbN1 : 1 ≤ b.toNat := by omega
  have hbN2 : b.toNat < 2 ^ 300 := by omega
  have haq : (0 : ℚ) < (a : ℚ) := by exact_mod_cast (by omega : (0 : ℤ) < a)
  have hbq : (0 : ℚ) < (b : ℚ) := by exact_mod_cast (by omega : (0 : ℤ) < b)
  have hq : 0 < (a : ℚ) / b := div_pos haq hbq
  unfold intLog2Q
  obtain ⟨la1, la2⟩ := natLog2_spec haN1 haN2
  obtain ⟨lb1, lb2⟩ := natLog2_spec hbN1 hbN2
  set La := natLog2 a.toNat with hLa
  set Lb := natLog2 b.toNat with hLb
  have haA : ((a.toNat : ℕ) : ℚ) = (a : ℚ) := by
    exact_mod_cast Int.toNat_of_nonneg (by omega : (0 : ℤ) ≤ a)
  have hbA : ((b.toNat : ℕ) : ℚ) = (b : ℚ) := by
    exact_mod_cast Int.toNat_of_nonneg (by omega : (0 : ℤ) ≤ b)
  have qa1 : (2 : ℚ) ^ (La : ℤ) ≤ (a : ℚ) := by
    rw [zpow_natCast, ← haA]
    exact_mod_cast la1
  have qa2 : (a : ℚ) < (2 : ℚ) ^ ((La : ℤ) + 1) := by
    rw [show (La : ℤ) + 1 = ((La + 1 : ℕ) : ℤ) by push_cast; ring, zpow_natCast, ← haA]
    exact_mod_cast la2
  have qb1 : (2 : ℚ) ^ (Lb : ℤ) ≤ (b : ℚ) := by
    rw [zpow_natCast, ← hbA]
    exact_mod_cast lb1
  have qb2 : (b : ℚ) < (2 : ℚ) ^ ((Lb : ℤ) + 1) := by
    rw [show (Lb : ℤ) + 1 = ((Lb + 1 : ℕ) : ℤ) by push_cast; ring, zpow_natCast, ← hbA]
    exact_mod_cast lb2
  have hz : ∀ x y : ℤ, (2 : ℚ) ^ (x + y) = 2 ^ x * 2 ^ y := fun x y =>
    zpow_add₀ (two_ne_zero) x y
  have qlow : (2 : ℚ) ^ ((La : ℤ) - Lb - 1) < (a : ℚ) / b := by
    rw [lt_div_iff hbq]
    calc (2 : ℚ) ^ ((La : ℤ) - Lb - 1) * b
        < 2 ^ ((La : ℤ) - Lb - 1) * 2 ^ ((Lb : ℤ) + 1) := by
          exact (mul_lt_mul_left (by positivity)).mpr qb2
      _ = 2 ^ (La : ℤ) := by rw [← hz]; ring_nf
      _ ≤ (a : ℚ) := qa1
  have qhigh : (a : ℚ) / b < (2 : ℚ) ^ ((La : ℤ) - Lb + 1) := by
    rw [div_lt_iff hbq]
    calc (a : ℚ) < 2 ^ ((La : ℤ) + 1) := qa2
      _ = 2 ^ ((La : ℤ) - Lb + 1) * 2 ^ (Lb : ℤ) := by rw [← hz]; ring_nf
      _ ≤ 2 ^ ((La : ℤ) - Lb + 1) * b := by
          exact (mul_le_mul_left (by positivity)).mpr qb1
  dsimp only
  split_ifs with h0 ht ht
  · -- 0 ≤ c and the test holds: log = c
    refine (log_eq_of_bounds hq ?_ qhigh).symm
    rw [le_div_iff hbq]
    have ht' : ((b * 2 ^ ((La : ℤ) - Lb).toNat : ℤ) : ℚ) ≤ (a : ℚ) := by exact_mod_cast ht
    push_cast at ht'
    rw [show ((2 : ℚ) ^ ((La : ℤ) - Lb).toNat = (2 : ℚ) ^ ((La : ℤ) - Lb)) from by
      rw [← zpow_natCast (2 : ℚ) ((La : ℤ) - Lb).toNat, Int.toNat_of_nonneg h0]] at ht'
    linarith
  · -- 0 ≤ c and the test fails: log = c - 1
    refine (log_eq_of_bounds hq qlow.le ?_).symm
    rw [show (La : ℤ) - Lb - 1 + 1 = (La : ℤ) - Lb by ring, div_lt_iff hbq]
    push_neg at ht
    have ht' : (a : ℚ) < ((b * 2 ^ ((La : ℤ) - Lb).toNat : ℤ) : ℚ) := by exact_mod_cast ht
    push_cast at ht'
    rw [show ((2 : ℚ) ^ ((La : ℤ) - Lb).toNat = (2 : ℚ) ^ ((La : ℤ) - Lb)) from by
      rw [← zpow_natCast (2 : ℚ) ((La : ℤ) - Lb).toNat, Int.toNat_of_nonneg h0]] at ht'
    linarith
  · -- c < 0 and the test holds: log = c
    push_neg at h0
    refine (log_eq_of_bounds hq ?_ qhigh).symm
    rw [le_div_iff hbq]
    have ht' : (b : ℚ) ≤ ((a * 2 ^ (-((La : ℤ) - Lb)).toNat : ℤ) : ℚ) := by exact_mod_cast ht
    push_cast at ht'
    rw [show ((2 : ℚ) ^ (-((La : ℤ) - Lb)).toNat = (2 : ℚ) ^ (-((La : ℤ) - Lb))) from by
      rw [← zpow_natCast (2 : ℚ) (-((La : ℤ) - Lb)).toNat,
        Int.toNat_of_nonneg (by omega : (0 : ℤ) ≤ -((La : ℤ) - Lb))]] at ht'
    have hmul := (mul_le_mul_left (show (0 : ℚ) < 2 ^ ((La : ℤ) - Lb) by positivity)).mpr ht'
    calc (2 : ℚ) ^ ((La : ℤ) - Lb) * b ≤
        2 ^ ((La : ℤ) - Lb) * ((a : ℚ) * 2 ^ (-((La : ℤ) - Lb))) := hmul
      _ = (a : ℚ) * (2 ^ ((La : ℤ) - Lb) * 2 ^ (-((La : ℤ) - Lb))) := by ring
      _ = (a : ℚ) := by rw [← hz]; simp
  · -- c < 0 and the test fails: log = c - 1
    push_neg at h0 ht
    refine (log_eq_of_bounds hq qlow.le ?_).symm
    rw [show (La : ℤ) - Lb - 1 + 1 = (La : ℤ) - Lb by ring, div_lt_iff hbq]
    have ht' : ((a * 2 ^ (-((La : ℤ) - Lb)).toNat : ℤ) : ℚ) < (b : ℚ) := by exact_mod_cast ht
    push_cast at ht'
    rw [show ((2 : ℚ) ^ (-((La : ℤ) - Lb)).toNat = (2 : ℚ) ^ (-((La : ℤ) - Lb))) from by
      rw [← zpow_natCast (2 : ℚ) (-((La : ℤ) - Lb)).toNat,
        Int.toNat_of_nonneg (by omega : (0 : ℤ) ≤ -((La : ℤ) - Lb))]] at ht'
    have hmul := (mul_lt_mul_left (show (0 : ℚ) < 2 ^ ((La : ℤ) - Lb) by positivity)).mpr ht'
    calc (a : ℚ) = (a : ℚ) * (2 ^ ((La : ℤ) - Lb) * 2 ^ (-((La : ℤ) - Lb))) := by
          rw [← hz]; simp
      _ = 2 ^ ((La : ℤ) - Lb) * ((a : ℚ) * 2 ^ (-((La : ℤ) - Lb))) := by ring
      _ < 2 ^ ((La : ℤ) - Lb) * b := hmul

/-- round53 computes exactly the 53-bit rounding flPosQ of a / b, with a
normalized mantissa. -/
theorem round53_eq {a b : ℤ} (ha : 1 ≤ a) (hb : 1 ≤ b)
    (ha2 : a ≤ 2 ^ 270) (hb2 : b ≤ 2 ^ 270) :
    ((round53 a b).1 : ℚ) * 2 ^ (round53 a b).2 = flPosQ ((a : ℚ) / b)
      ∧ 2 ^ 52 ≤ (round53 a b).1 ∧ (round53 a b).1 ≤ 2 ^ 53 := by
  have hbZ : (0 : ℤ) < b := by omega
  have haq : (0 : ℚ) < a := by exact_mod_cast (by omega : (0 : ℤ) < a)
  have hbq : (0 : ℚ) < b := by exact_mod_cast hbZ
  have hq : 0 < (a : ℚ) / b := div_pos haq hbq
  have hee : intLog2Q a b = Int.log 2 ((a : ℚ) / b) := intLog2Q_eq_log ha hb ha2 hb2
  set e := Int.log 2 ((a : ℚ) / b) with he
  set m : ℚ := (a : ℚ) / b * 2 ^ (52 - e) with hm
  have hql : (2 : ℚ) ^ e ≤ (a : ℚ) / b := Int.zpow_log_le_self (by norm_num) hq
  have hqh : (a : ℚ) / b < 2 ^ (e + 1) := Int.lt_zpow_succ_log_self (by norm_num) _
  have hm1 : (2 : ℚ) ^ (52 : ℤ) ≤ m := by
    calc (2 : ℚ) ^ (52 : ℤ) = 2 ^ e * 2 ^ (52 - e) := by
          rw [← zpow_add₀ (by norm_num : (2 : ℚ) ≠ 0)]
          congr 1
          ring
      _ ≤ (a : ℚ) / b * 2 ^ (52 - e) :=
          mul_le_mul_of_nonneg_right hql (by positivity)
      _ = m := hm.symm
  have hm2 : m < (2 : ℚ) ^ (53 : ℤ) := by
    calc m = (a : ℚ) / b * 2 ^ (52 - e) := hm
      _ < 2 ^ (e + 1) * 2 ^ (52 - e) :=
          mul_lt_mul_of_pos_right hqh (by positivity)
      _ = (2 : ℚ) ^ (53 : ℤ) := by
          rw [← zpow_add₀ (by norm_num : (2 : ℚ) ≠ 0)]
          congr 1
          ring
  have c52 : ((2 ^ 52 : ℤ) : ℚ) = (2 : ℚ) ^ (52 : ℤ) := by
    rw [show (52 : ℤ) = ((52 : ℕ) : ℤ) from rfl, zpow_natCast]
    push_cast
    ring
  have c53 : ((2 ^ 53 : ℤ) : ℚ) = (2 : ℚ) ^ (53 : ℤ) := by
    rw [show (53 : ℤ) = ((53 : ℕ) : ℤ) from rfl, zpow_natCast]
    push_cast
    ring
  have hfl : flPosQ ((a : ℚ) / b) = (roundNEQ m : ℚ) * 2 ^ (e - 52) := by
    unfold flPosQ
    rw [← he, ← hm]
  have hlow : 2 ^ 52 ≤ roundNEQ m := by
    have h1 : (2 ^ 52 : ℤ) ≤ ⌊m⌋ := Int.le_floor.mpr (by rw [c52]; exact hm1)
    have h2 := roundNEQ_ge_floor m
    omega
  have hhigh : roundNEQ m ≤ 2 ^ 53 := by
    have h1 : ⌊m⌋ < 2 ^ 53 := Int.floor_lt.mpr (by rw [c53]; exact hm2)
    have h2 := roundNEQ_le_floor_add_one m
    omega
  unfold round53
  dsimp only
  rw [hee]
  split_ifs with hs
  · have harg : ((a * 2 ^ (52 - e).toNat : ℤ) : ℚ) / b = m := by
      rw [Int.cast_mul, cast_two_pow_toNat hs, hm]
      ring
    rw [rnearInt_eq hbZ, harg]
    exact ⟨hfl.symm, hlow, hhigh⟩
  · push_neg at hs
    have hdiv : (0 : ℤ) < b * 2 ^ (-(52 - e)).toNat := by positivity
    have harg : (a : ℚ) / ((b * 2 ^ (-(52 - e)).toNat : ℤ) : ℚ) = m := by
      rw [Int.cast_mul, cast_two_pow_toNat (by omega : (0 : ℤ) ≤ -(52 - e)), neg_sub, hm]
      rw [show (2 : ℚ) ^ (e - 52) = (2 ^ (52 - e) : ℚ)⁻¹ by
        rw [← zpow_neg]
        congr 1
        ring]
      field_simp
    rw [rnearInt_eq hdiv, harg]
    exact ⟨hfl.symm, hlow, hhigh⟩

/-- Casting 2^52 to a rational zpow. -/
theorem cast_pow52 : ((2 ^ 52 : ℤ) : ℚ) = (2 : ℚ) ^ (52 : ℤ) := by
  rw [show (52 : ℤ) = ((52 : ℕ) : ℤ) from rfl, zpow_natCast]
  push_cast
  ring

/-- Casting 2^53 to a rational zpow. -/
theorem cast_pow53 : ((2 ^ 53 : ℤ) : ℚ) = (2 : ℚ) ^ (53 : ℤ) := by
  rw [show (53 : ℤ) = ((53 : ℕ) : ℤ) from rfl, zpow_natCast]
  push_cast
  ring

/-- Int.log of a power-of-two scaling. -/
theorem log_two_scale {q : ℚ} (hq : 0 < q) (d : ℤ) :
    Int.log 2 (q * 2 ^ d) = Int.log 2 q + d := by
  apply log_eq_of_bounds (by positivity)
  · rw [zpow_add₀ (by norm_num : (2 : ℚ) ≠ 0)]
    exact mul_le_mul_of_nonneg_right (Int.zpow_log_le_self (by norm_num) hq) (by positivity)
  · calc q * 2 ^ d < 2 ^ (Int.log 2 q + 1) * 2 ^ d :=
        mul_lt_mul_of_pos_right (Int.lt_zpow_succ_log_self (by norm_num) q) (by positivity)
      _ = 2 ^ (Int.log 2 q + d + 1) := by
        rw [← zpow_add₀ (by norm_num : (2 : ℚ) ≠ 0)]
        congr 1
        ring

/-- flPosQ commutes with scaling by powers of two. -/
theorem flPosQ_scale {q : ℚ} (hq : 0 < q) (d : ℤ) :
    flPosQ (q * 2 ^ d) = flPosQ q * 2 ^ d := by
  unfold flPosQ
  rw [log_two_scale hq d]
  rw [show q * 2 ^ d * 2 ^ (52 - (Int.log 2 q + d)) = q * 2 ^ (52 - Int.log 2 q) by
    rw [mul_assoc, ← zpow_add₀ (by norm_num : (2 : ℚ) ≠ 0)]
    congr 2
    ring]
  rw [mul_assoc, ← zpow_add₀ (by norm_num : (2 : ℚ) ≠ 0)]
  congr 2
  ring

/-- flPosQ stays in the leading binade from below. -/
theorem flPosQ_ge {q : ℚ} (hq : 0 < q) : (2 : ℚ) ^ Int.log 2 q ≤ flPosQ q := by
  set L := Int.log 2 q with hL
  have hm1 : (2 : ℚ) ^ (52 : ℤ) ≤ q * 2 ^ (52 - L) := by
    calc (2 : ℚ) ^ (52 : ℤ) = 2 ^ L * 2 ^ (52 - L) := by
          rw [← zpow_add₀ (by norm_num : (2 : ℚ) ≠ 0)]
          congr 1
          ring
      _ ≤ q * 2 ^ (52 - L) :=
          mul_le_mul_of_nonneg_right (Int.zpow_log_le_self (by norm_num) hq) (by positivity)
  have hfl : (2 ^ 52 : ℤ) ≤ roundNEQ (q * 2 ^ (52 - L)) := by
    have h1 : (2 ^ 52 : ℤ) ≤ ⌊q * 2 ^ (52 - L)⌋ :=
      Int.le_floor.mpr (by rw [cast_pow52]; exact hm1)
    have h2 := roundNEQ_ge_floor (q * 2 ^ (52 - L))
    omega
  unfold flPosQ
  rw [← hL]
  calc (2 : ℚ) ^ L = (2 : ℚ) ^ (52 : ℤ) * 2 ^ (L - 52) := by
        rw [← zpow_add₀ (by norm_num : (2 : ℚ) ≠ 0)]
        congr 1
        ring
    _ ≤ (roundNEQ (q * 2 ^ (52 - L)) : ℚ) * 2 ^ (L - 52) := by
        have : ((2 ^ 52 : ℤ) : ℚ) ≤ (roundNEQ (q * 2 ^ (52 - L)) : ℚ) := by exact_mod_cast hfl
        rw [← cast_pow52]
        exact mul_le_mul_of_nonneg_right this (by positivity)

theorem flPosQ_pos {q : ℚ} (hq : 0 < q) : 0 < flPosQ q :=
  lt_of_lt_of_le (by positivity) (flPosQ_ge hq)

theorem flQ_of_pos {q : ℚ} (hq : 0 < q) : flQ q = flPosQ q := by
  unfold flQ
  rw [if_neg (by linarith), if_neg (by linarith)]

theorem flQ_zero : flQ 0 = 0 := by
  unfold flQ
  norm_num

theorem flQ_neg (q : ℚ) : flQ (-q) = -flQ q := by
  unfold flQ
  rcases lt_trichotomy q 0 with h | h | h
  · rw [if_neg (by linarith), if_neg (by linarith), if_pos h]
    ring
  · subst h
    norm_num
  · rw [if_pos (by linarith), if_neg (by linarith), if_neg (by linarith), neg_neg]

theorem mathRoundQ_neg (q : ℚ) : mathRoundQ (-q) = -mathRoundQ q := by
  unfold mathRoundQ
  rcases lt_trichotomy q 0 with h | h | h
  · rw [if_neg (by linarith), if_pos h]
    ring_nf
  · subst h
    norm_num
  · rw [if_pos (by linarith), if_neg (by linarith)]
    ring_nf

/-- flPosQ is exact on integers up to 2^53. -/
theorem flPosQ_intCast {n : ℤ} (h1 : 1 ≤ n) (h2 : n ≤ 2 ^ 53) : flPosQ (n : ℚ) = n := by
  have hq : (0 : ℚ) < n := by exact_mod_cast (by omega : (0 : ℤ) < n)
  set L := Int.log 2 (n : ℚ) with hL
  have hL0 : 0 ≤ L := by
    rw [hL]
    have : (2 : ℚ) ^ (0 : ℤ) ≤ (n : ℚ) := by
      rw [zpow_zero]
      exact_mod_cast h1
    exact (Int.zpow_le_iff_le_log (by norm_num) hq).mp this
  by_cases hc : n < 2 ^ 53
  · have hL52 : L ≤ 52 := by
      by_contra hcon
      push_neg at hcon
      have h53 : (53 : ℤ) ≤ L := by omega
      have hge : (2 : ℚ) ^ (53 : ℤ) ≤ (n : ℚ) :=
        le_trans (zpow_le_zpow_right₀ (by norm_num) h53) (Int.zpow_log_le_self (by norm_num) hq)
      rw [← cast_pow53] at hge
      have : (2 ^ 53 : ℤ) ≤ n := by exact_mod_cast hge
      omega
    unfold flPosQ
    rw [← hL]
    rw [show (n : ℚ) * 2 ^ (52 - L) = ((n * 2 ^ (52 - L).toNat : ℤ) : ℚ) by
      rw [Int.cast_mul, cast_two_pow_toNat (by omega)]]
    rw [roundNEQ_intCast, Int.cast_mul, cast_two_pow_toNat (by omega)]
    rw [mul_assoc, ← zpow_add₀ (by norm_num : (2 : ℚ) ≠ 0),
      show 52 - L + (L - 52) = 0 by ring, zpow_zero, mul_one]
  · have hn : n = 2 ^ 53 := by omega
    subst hn
    have hL53 : L = 53 := by
      rw [hL, cast_pow53]
      exact Int.log_zpow (by norm_num) 53
    unfold flPosQ
    rw [← hL, hL53]
    rw [show ((2 ^ 53 : ℤ) : ℚ) * 2 ^ (52 - 53 : ℤ) = ((2 ^ 52 : ℤ) : ℚ) by
      rw [cast_pow53, cast_pow52, ← zpow_add₀ (by norm_num : (2 : ℚ) ≠ 0)]
      norm_num]
    rw [roundNEQ_intCast]
    rw [cast_pow53, cast_pow52, ← zpow_add₀ (by norm_num : (2 : ℚ) ≠ 0)]
    norm_num

/-- flQ is exact on integers of magnitude at most 2^53. -/
theorem flQ_intCast {n : ℤ} (h : |n| ≤ 2 ^ 53) : flQ (n : ℚ) = n := by
  rcases lt_trichotomy n 0 with hn | hn | hn
  · have h1 : 1 ≤ -n := by omega
    have h2 : -n ≤ 2 ^ 53 := by
      rw [abs_of_neg hn] at h
      exact h
    have : flQ (-(((-n : ℤ)) : ℚ)) = -flQ (((-n : ℤ)) : ℚ) := flQ_neg _
    rw [show ((n : ℤ) : ℚ) = -(((-n : ℤ)) : ℚ) by push_cast; ring, this,
      flQ_of_pos (by exact_mod_cast (by omega : (0 : ℤ) < -n)), flPosQ_intCast h1 h2]
  · subst hn
    rw [Int.cast_zero, flQ_zero]
  · have h2 : n ≤ 2 ^ 53 := by
      rw [abs_of_pos hn] at h
      exact h
    rw [flQ_of_pos (by exact_mod_cast hn), flPosQ_intCast (by omega) h2]

/-- The integer pipeline computes the specified float64 rounding (positives):
convert each operand (one 53-bit rounding), divide with correct rounding
(second 53-bit rounding), round half away from zero. -/
theorem roundDivPos_eq {a b : ℤ} (ha : 1 ≤ a) (hb : 1 ≤ b)
    (ha2 : a ≤ 2 ^ 270) (hb2 : b ≤ 2 ^ 270) :
    roundDivPos a b = mathRoundQ (flQ (flQ a / flQ b)) := by
  have haq : (0 : ℚ) < a := by exact_mod_cast (by omega : (0 : ℤ) < a)
  have hbq : (0 : ℚ) < b := by exact_mod_cast (by omega : (0 : ℤ) < b)
  obtain ⟨v1, m1l, m1h⟩ := round53_eq ha (le_refl (1 : ℤ)) ha2 (by norm_num)
  obtain ⟨v2, m2l, m2h⟩ := round53_eq hb (le_refl (1 : ℤ)) hb2 (by norm_num)
  rw [Int.cast_one, div_one] at v1 v2
  have hp52 : (0 : ℤ) < 2 ^ 52 := by positivity
  have hM1pos : (1 : ℤ) ≤ (round53 a 1).1 := by omega
  have hM2pos : (1 : ℤ) ≤ (round53 b 1).1 := by omega
  have h53_270 : (2 ^ 53 : ℤ) ≤ 2 ^ 270 := by norm_num
  obtain ⟨vq, mql, mqh⟩ :=
    round53_eq hM1pos hM2pos (le_trans m1h h53_270) (le_trans m2h h53_270)
  have hM1q : (0 : ℚ) < ((round53 a 1).1 : ℚ) := by
    exact_mod_cast (by omega : (0 : ℤ) < (round53 a 1).1)
  have hM2q : (0 : ℚ) < ((round53 b 1).1 : ℚ) := by
    exact_mod_cast (by omega : (0 : ℤ) < (round53 b 1).1)
  have hquot : flQ a / flQ b
      = ((round53 a 1).1 : ℚ) / ((round53 b 1).1 : ℚ)
          * 2 ^ ((round53 a 1).2 - (round53 b 1).2) := by
    rw [flQ_of_pos haq, flQ_of_pos hbq, ← v1, ← v2,
      zpow_sub₀ (by norm_num : (2 : ℚ) ≠ 0)]
    have hz2 : ((2 : ℚ) ^ (round53 b 1).2) ≠ 0 := zpow_ne_zero _ (by norm_num)
    field_simp
  have hqpos : (0 : ℚ) < ((round53 a 1).1 : ℚ) / ((round53 b 1).1 : ℚ) := div_pos hM1q hM2q
  have hfq : flQ (flQ a / flQ b)
      = ((round53 (round53 a 1).1 (round53 b 1).1).1 : ℚ)
          * 2 ^ ((round53 (round53 a 1).1 (round53 b 1).1).2
              + (round53 a 1).2 - (round53 b 1).2) := by
    rw [hquot, flQ_of_pos (mul_pos hqpos (by positivity)), flPosQ_scale hqpos, ← vq,
      mul_assoc, ← zpow_add₀ (by norm_num : (2 : ℚ) ≠ 0)]
    congr 2
    ring
  rw [hfq]
  unfold roundDivPos
  dsimp only
  split_ifs with hFs
  · rw [show ((round53 (round53 a 1).1 (round53 b 1).1).1 : ℚ)
          * 2 ^ ((round53 (round53 a 1).1 (round53 b 1).1).2
              + (round53 a 1).2 - (round53 b 1).2)
        = (((round53 (round53 a 1).1 (round53 b 1).1).1
            * 2 ^ ((round53 (round53 a 1).1 (round53 b 1).1).2
                + (round53 a 1).2 - (round53 b 1).2).toNat : ℤ) : ℚ) by
      rw [Int.cast_mul, cast_two_pow_toNat hFs]]
    rw [mathRoundQ_intCast]
  · push_neg at hFs
    rw [show ((round53 (round53 a 1).1 (round53 b 1).1).1 : ℚ)
          * 2 ^ ((round53 (round53 a 1).1 (round53 b 1).1).2
              + (round53 a 1).2 - (round53 b 1).2)
        = ((round53 (round53 a 1).1 (round53 b 1).1).1 : ℚ)
          / ((2 ^ (-((round53 (round53 a 1).1 (round53 b 1).1).2
              + (round53 a 1).2 - (round53 b 1).2)).toNat : ℤ) : ℚ) by
      rw [cast_two_pow_toNat (by omega : (0 : ℤ)
          ≤ -((round53 (round53 a 1).1 (round53 b 1).1).2
              + (round53 a 1).2 - (round53 b 1).2)),
        div_eq_mul_inv, ← zpow_neg, neg_neg]]
    exact rHalfAwayPos_eq (by omega) (by positivity)

/-- The executable roundDiv equals the float64 specification whenever the
divisor is nonzero; the 2^270 magnitude bound always holds for int64 inputs. -/
theorem roundDiv_eq_spec {a b : ℤ} (hb : b ≠ 0)
    (ha2 : |a| ≤ 2 ^ 270) (hb2 : |b| ≤ 2 ^ 270) :
    roundDiv a b = mathRoundQ (flQ (flQ a / flQ b)) := by
  unfold roundDiv
  by_cases haz : a = 0
  · subst haz
    rw [if_pos (Or.inl rfl), Int.cast_zero, flQ_zero, zero_div, flQ_zero,
      show (0 : ℚ) = ((0 : ℤ) : ℚ) by norm_num, mathRoundQ_intCast]
  · rw [if_neg (not_or.mpr ⟨haz, hb⟩)]
    rcases lt_trichotomy a 0 with hA | hA | hA
    · rcases lt_trichotomy b 0 with hB | hB | hB
      · rw [if_pos (Or.inr ⟨hA, hB⟩), abs_of_neg hA, abs_of_neg hB,
          roundDivPos_eq (by omega) (by omega)
            (by rw [abs_of_neg hA] at ha2; omega) (by rw [abs_of_neg hB] at hb2; omega)]
        congr 2
        rw [show ((-a : ℤ) : ℚ) = -(a : ℚ) by push_cast; ring,
          show ((-b : ℤ) : ℚ) = -(b : ℚ) by push_cast; ring,
          flQ_neg, flQ_neg, neg_div_neg_eq]
      · omega
      · rw [if_neg (by rintro (⟨h1, h2⟩ | ⟨h1, h2⟩) <;> omega), abs_of_neg hA, abs_of_pos hB,
          roundDivPos_eq (by omega) (by omega)
            (by rw [abs_of_neg hA] at ha2; omega) (by rw [abs_of_pos hB] at hb2; omega)]
        rw [show ((-a : ℤ) : ℚ) = -(a : ℚ) by push_cast; ring,
          flQ_neg, neg_div, flQ_neg, mathRoundQ_neg, neg_neg]
    · omega
    · rcases lt_trichotomy b 0 with hB | hB | hB
      · rw [if_neg (by rintro (⟨h1, h2⟩ | ⟨h1, h2⟩) <;> omega), abs_of_pos hA, abs_of_neg hB,
          roundDivPos_eq (by omega) (by omega)
            (by rw [abs_of_pos hA] at ha2; omega) (by rw [abs_of_neg hB] at hb2; omega)]
        rw [show ((-b : ℤ) : ℚ) = -(b : ℚ) by push_cast; ring,
          flQ_neg, div_neg, flQ_neg, mathRoundQ_neg, neg_neg]
      · omega
      · rw [if_pos (Or.inl ⟨hA, hB⟩), abs_of_pos hA, abs_of_pos hB]
        exact roundDivPos_eq (by omega) (by omega)
          (by rw [abs_of_pos hA] at ha2; omega) (by rw [abs_of_pos hB] at hb2; omega)

theorem rnearInt_nonneg {a b : ℤ} (ha : 0 ≤ a) (hb : 0 ≤ b) : 0 ≤ rnearInt a b := by
  unfold rnearInt
  have hq : 0 ≤ a / b := Int.ediv_nonneg ha hb
  dsimp only
  split_ifs <;> omega

theorem round53_fst_nonneg {a b : ℤ} (ha : 0 ≤ a) (hb : 0 ≤ b) : 0 ≤ (round53 a b).1 := by
  unfold round53
  dsimp only
  split_ifs
  · exact rnearInt_nonneg (by positivity) hb
  · exact rnearInt_nonneg ha (by positivity)

theorem rHalfAwayPos_nonneg {a b : ℤ} (ha : 0 ≤ a) (hb : 0 ≤ b) : 0 ≤ rHalfAwayPos a b := by
  unfold rHalfAwayPos
  have hq : 0 ≤ a / b := Int.ediv_nonneg ha hb
  split_ifs <;> omega

theorem roundDivPos_nonneg {a b : ℤ} (ha : 0 ≤ a) (hb : 0 ≤ b) : 0 ≤ roundDivPos a b := by
  unfold roundDivPos
  dsimp only
  have h1 : 0 ≤ (round53 a 1).1 := round53_fst_nonneg ha (by norm_num)
  have h2 : 0 ≤ (round53 b 1).1 := round53_fst_nonneg hb (by norm_num)
  have h3 : 0 ≤ (round53 (round53 a 1).1 (round53 b 1).1).1 := round53_fst_nonneg h1 h2
  split_ifs
  · exact mul_nonneg h3 (by positivity)
  · exact rHalfAwayPos_nonneg h3 (by positivity)

/-- roundDiv of nonnegative arguments is nonnegative (true for all inputs,
with no magnitude restriction). -/
theorem roundDiv_nonneg {a b : ℤ} (ha : 0 ≤ a) (hb : 0 ≤ b) : 0 ≤ roundDiv a b := by
  unfold roundDiv
  split_ifs with h1 h2
  · exact le_refl 0
  · exact roundDivPos_nonneg (abs_nonneg a) (abs_nonneg b)
  · exact absurd (Or.inl ⟨by omega, by omega⟩) h2

/-- roundDiv is exact on divisible inputs within float64 precision. -/
theorem roundDiv_exact {a b : ℤ} (hd : b ∣ a) (ha : |a| ≤ 2 ^ 53)
    (hb1 : 1 ≤ b) (hb2 : b ≤ 2 ^ 53) : roundDiv a b = a / b := by
  have h270 : (2 ^ 53 : ℤ) ≤ 2 ^ 270 := by norm_num
  rw [roundDiv_eq_spec (by omega) (le_trans ha h270)
    (by rw [abs_of_pos (by omega)]; omega)]
  have hbq : ((b : ℤ) : ℚ) ≠ 0 := by exact_mod_cast (by omega : b ≠ 0)
  obtain ⟨k, rfl⟩ := hd
  have habs : |b| * |k| ≤ 2 ^ 53 := by rw [← abs_mul]; exact ha
  have hb' : 1 ≤ |b| := by
    rw [abs_of_pos (show (0 : ℤ) < b by omega)]
    omega
  have hk : |k| ≤ 2 ^ 53 := by nlinarith [abs_nonneg k]
  rw [flQ_intCast ha, flQ_intCast (show |b| ≤ 2 ^ 53 by
      rw [abs_of_pos (show (0 : ℤ) < b by omega)]
      omega),
    show ((b * k : ℤ) : ℚ) / ((b : ℤ) : ℚ) = ((k : ℤ) : ℚ) by push_cast; field_simp,
    flQ_intCast hk, mathRoundQ_intCast, Int.mul_ediv_cancel_left k (by omega)]

/-- roundDiv of positive operands is at least 1 when the true quotient is at
least one half, within float64-exact magnitudes. -/
theorem roundDiv_ge_one {p r : ℤ} (hp1 : 1 ≤ p) (hr1 : 1 ≤ r) (hrp : r ≤ 2 * p)
    (hp2 : p ≤ 2 ^ 53) (hr2 : r ≤ 2 ^ 53) : 1 ≤ roundDiv p r := by
  have h270 : (2 ^ 53 : ℤ) ≤ 2 ^ 270 := by norm_num
  rw [roundDiv_eq_spec (by omega) (by rw [abs_of_pos (by omega)]; omega)
    (by rw [abs_of_pos (by omega)]; omega)]
  rw [flQ_intCast (by rw [abs_of_pos (by omega)]; omega),
    flQ_intCast (by rw [abs_of_pos (by omega)]; omega)]
  have hpq : (0 : ℚ) < (p : ℚ) := by exact_mod_cast (by omega : (0 : ℤ) < p)
  have hrq : (0 : ℚ) < (r : ℚ) := by exact_mod_cast (by omega : (0 : ℤ) < r)
  have hq : (0 : ℚ) < (p : ℚ) / r := div_pos hpq hrq
  have hhalf : (1 : ℚ) / 2 ≤ (p : ℚ) / r := by
    rw [div_le_div_iff (by norm_num) hrq]
    have : ((r : ℤ) : ℚ) ≤ ((2 * p : ℤ) : ℚ) := by exact_mod_cast hrp
    push_cast at this
    linarith
  have hlog : (-1 : ℤ) ≤ Int.log 2 ((p : ℚ) / r) := by
    have h2 : (2 : ℚ) ^ (-1 : ℤ) ≤ (p : ℚ) / r := by
      rw [zpow_neg, zpow_one]
      rw [show ((2 : ℚ))⁻¹ = 1 / 2 by norm_num]
      exact hhalf
    exact (Int.zpow_le_iff_le_log (by norm_num) hq).mp h2
  have hfl : (1 : ℚ) / 2 ≤ flQ ((p : ℚ) / r) := by
    rw [flQ_of_pos hq]
    calc (1 : ℚ) / 2 = (2 : ℚ) ^ (-1 : ℤ) := by
          rw [zpow_neg, zpow_one]
          norm_num
      _ ≤ (2 : ℚ) ^ Int.log 2 ((p : ℚ) / r) := zpow_le_zpow_right₀ (by norm_num) hlog
      _ ≤ flPosQ ((p : ℚ) / r) := flPosQ_ge hq
  exact mathRoundQ_ge_one hfl

theorem wrap_eq_self {x : ℤ} (h1 : -(2 ^ 63) ≤ x) (h2 : x < 2 ^ 63) : wrap x = x := by
  unfold wrap
  omega

/-- When every intermediate value fits in int64, ComputeRaw agrees with its
wrap-free counterpart. -/
theorem computeRaw_eq_Z (tat now burst rate period cost : ℤ)
    (hei : 0 ≤ roundDiv period rate) (hc : 0 ≤ cost) (hcb : cost ≤ burst)
    (hbb : roundDiv period rate * burst ≤ 2 ^ 61)
    (ht1 : -(2 ^ 61) ≤ tat) (ht2 : tat ≤ 2 ^ 61)
    (hn1 : -(2 ^ 61) ≤ now) (hn2 : now ≤ 2 ^ 61) :
    ComputeRaw tat now burst rate period cost = computeRawZ tat now burst rate period cost := by
  have hic : 0 ≤ roundDiv period rate * cost := mul_nonneg hei hc
  have hicb : roundDiv period rate * cost ≤ roundDiv period rate * burst :=
    mul_le_mul_of_nonneg_left hcb hei
  unfold ComputeRaw computeRawZ
  dsimp only
  set ei := roundDiv period rate with hei2
  set tc := if now > tat then now else tat with htc
  have htc1 : -(2 ^ 61) ≤ tc := by rw [htc]; split_ifs <;> omega
  have htc2 : tc ≤ 2 ^ 61 := by rw [htc]; split_ifs <;> omega
  have w1 : wrap (ei * cost) = ei * cost := wrap_eq_self (by omega) (by omega)
  have w2 : wrap (ei * burst) = ei * burst := wrap_eq_self (by omega) (by omega)
  have w3 : wrap (tc + ei * cost) = tc + ei * cost := wrap_eq_self (by omega) (by omega)
  have w4 : wrap (tc + ei * cost - ei * burst) = tc + ei * cost - ei * burst :=
    wrap_eq_self (by omega) (by omega)
  have w5 : wrap (now - (tc + ei * cost - ei * burst)) = now - (tc + ei * cost - ei * burst) :=
    wrap_eq_self (by omega) (by omega)
  have w6 : wrap (tc - ei * burst) = tc - ei * burst := wrap_eq_self (by omega) (by omega)
  have w7 : wrap (now - (tc - ei * burst)) = now - (tc - ei * burst) :=
    wrap_eq_self (by omega) (by omega)
  have w8 : wrap ((now - (tc + ei * cost - ei * burst)) * -1)
      = (now - (tc + ei * cost - ei * burst)) * -1 := wrap_eq_self (by omega) (by omega)
  have w9 : wrap (tc - now) = tc - now := wrap_eq_self (by omega) (by omega)
  have w10 : wrap (tc + ei * cost - now) = tc + ei * cost - now :=
    wrap_eq_self (by omega) (by omega)
  simp only [w1, w2, w3, w4, w5, w6, w7, w8, w9, w10]

/-- Clamping the stored TAT to now before the call does not change the
outcome: ComputeRaw begins by performing exactly this clamp. -/
theorem computeRaw_clamped (tat now burst rate period cost : ℤ) :
    ComputeRaw (if now > tat then now else tat) now burst rate period cost
      = ComputeRaw tat now burst rate period cost := by
  unfold ComputeRaw
  dsimp only
  rw [show (if now > (if now > tat then now else tat) then now
        else (if now > tat then now else tat)) = (if now > tat then now else tat) by
    split_ifs <;> omega]

/-- computeRawZ commutes with shifting both times by the same amount: only the
new TAT moves, all reported quantities are translation invariant. -/
theorem computeRawZ_shift (tat now s burst rate period cost : ℤ) :
    computeRawZ (tat + s) (now + s) burst rate period cost
      = ((computeRawZ tat now burst rate period cost).1 + s,
         (computeRawZ tat now burst rate period cost).2.1,
         (computeRawZ tat now burst rate period cost).2.2.1,
         (computeRawZ tat now burst rate period cost).2.2.2.1,
         (computeRawZ tat now burst rate period cost).2.2.2.2) := by
  unfold computeRawZ
  dsimp only
  set ei := roundDiv period rate with hei
  rw [show (if now + s > tat + s then now + s else tat + s)
      = (if now > tat then now else tat) + s by split_ifs <;> omega]
  set tc := if now > tat then now else tat with htc
  rw [show now + s - (tc + s + ei * cost - ei * burst)
      = now - (tc + ei * cost - ei * burst) by ring]
  rw [show now + s - (tc + s - ei * burst) = now - (tc - ei * burst) by ring]
  rw [show tc + s - (now + s) = tc - now by ring]
  rw [show tc + s + ei * cost - (now + s) = tc + ei * cost - now by ring]
  rw [show tc + s + ei * cost = tc + ei * cost + s by ring]
  split_ifs <;> rfl

/-- ComputeRaw at inputs shifted into int64 range, evaluated by translation. -/
theorem computeRaw_shifted (a b s burst rate period cost : ℤ)
    (hei : 0 ≤ roundDiv period rate) (hc : 0 ≤ cost) (hcb : cost ≤ burst)
    (hbb : roundDiv period rate * burst ≤ 2 ^ 61)
    (h1 : -(2 ^ 61) ≤ a + s) (h2 : a + s ≤ 2 ^ 61)
    (h3 : -(2 ^ 61) ≤ b + s) (h4 : b + s ≤ 2 ^ 61) :
    ComputeRaw (a + s) (b + s) burst rate period cost
      = ((computeRawZ a b burst rate period cost).1 + s,
         (computeRawZ a b burst rate period cost).2.1,
         (computeRawZ a b burst rate period cost).2.2.1,
         (computeRawZ a b burst rate period cost).2.2.2.1,
         (computeRawZ a b burst rate period cost).2.2.2.2) :=
  (computeRaw_eq_Z (a + s) (b + s) burst rate period cost hei hc hcb hbb h1 h2 h3 h4).trans
    (computeRawZ_shift a b s burst rate period cost)

/-!
Claim theorems.
-/

/-- C9 counterexample: with the valid parameters period = 1 ns and rate = 3,
the emission interval roundDiv(period, rate) is 0 (float64 0.333… rounds to
0), not strictly positive; ComputeRaw then passes the zero divisor to
roundDiv when computing remaining. -/
theorem c9_counterexample : roundDiv 1 3 = 0 := by decide

/-- C9 (amended): under valid parameters with rate ≤ 2·period and period and
rate at most 2^53 (where float64 is exact enough), the emission interval
roundDiv(period, rate) is strictly positive, so the divisor ComputeRaw later
passes to roundDiv when computing remaining is nonzero.  For rate > 2·period
the emission interval rounds to 0 and ComputeRaw divides by zero. -/
theorem c9_emission_interval_pos (period rate : ℤ) (hp : 1 ≤ period) (hr : 1 ≤ rate)
    (hrp : rate ≤ 2 * period) (hp2 : period ≤ 2 ^ 53) (hr2 : rate ≤ 2 ^ 53) :
    0 < roundDiv period rate := by
  have := roundDiv_ge_one hp hr hrp hp2 hr2
  omega

theorem c9_witness : 0 < roundDiv 1000000000 10 :=
  c9_emission_interval_pos 1000000000 10 (by norm_num) (by norm_num) (by norm_num)
    (by norm_num) (by norm_num)

/-- C5 counterexample: roundDiv computes through float64 and differs from the
exact nearest-integer rational rounding at period = 2^53 + 1, rate = 1 (the
conversion of 2^53 + 1 to float64 already loses the last bit). -/
theorem c5_counterexample :
    roundDiv 9007199254740993 1 = 9007199254740992
      ∧ exactRoundDiv 9007199254740993 1 = 9007199254740993
      ∧ roundDiv 9007199254740993 1 ≠ exactRoundDiv 9007199254740993 1 := by decide

theorem rHalfAwayPos_mul_self {b k : ℤ} (hb : 1 ≤ b) : rHalfAwayPos (b * k) b = k := by
  unfold rHalfAwayPos
  have h1 : b * k % b = 0 := Int.mul_emod_right b k
  have h2 : b * k / b = k := Int.mul_ediv_cancel_left k (by omega)
  rw [h1, h2, if_pos (by omega)]

theorem exactRoundDiv_of_dvd {a b : ℤ} (hd : b ∣ a) (hb : 1 ≤ b) :
    exactRoundDiv a b = a / b := by
  obtain ⟨k, rfl⟩ := hd
  unfold exactRoundDiv
  rw [if_neg (by omega), Int.mul_ediv_cancel_left k (by omega)]
  rcases lt_trichotomy k 0 with hk | hk | hk
  · rw [if_neg (by rintro (⟨h1, h2⟩ | ⟨h1, h2⟩) <;> nlinarith)]
    rw [abs_of_neg (by nlinarith : b * k < 0), abs_of_pos (by omega : (0 : ℤ) < b),
      show -(b * k) = b * -k by ring, rHalfAwayPos_mul_self hb]
    omega
  · subst hk
    rw [if_neg (by rintro (⟨h1, h2⟩ | ⟨h1, h2⟩) <;> omega)]
    rw [mul_zero, abs_zero, abs_of_pos (by omega : (0 : ℤ) < b)]
    unfold rHalfAwayPos
    rw [Int.zero_emod, Int.zero_ediv, if_pos (by omega)]
    norm_num
  · rw [if_pos (Or.inl ⟨by nlinarith, by omega⟩)]
    rw [abs_of_pos (by nlinarith : (0 : ℤ) < b * k), abs_of_pos (by omega : (0 : ℤ) < b),
      rHalfAwayPos_mul_self hb]

/-- C5 (amended): the emission interval computed by roundDiv equals the exact
nearest-integer value of period/rate whenever rate divides period, |period| ≤
2^53 and 1 ≤ rate ≤ 2^53, where float64 represents all values involved
exactly; for larger operands the float64 quotient can differ from the exact
rational rounding. -/
theorem c5_roundDiv_exact_small (period rate : ℤ) (hd : rate ∣ period)
    (hp : |period| ≤ 2 ^ 53) (hr1 : 1 ≤ rate) (hr2 : rate ≤ 2 ^ 53) :
    roundDiv period rate = exactRoundDiv period rate := by
  rw [roundDiv_exact hd hp hr1 hr2, exactRoundDiv_of_dvd hd hr1]

theorem c5_witness : roundDiv 1000000000 10 = exactRoundDiv 1000000000 10 :=
  c5_roundDiv_exact_small 1000000000 10 (by norm_num) (by norm_num) (by norm_num)
    (by norm_num)

/-- C2 counterexample: with valid parameters (burst = 4 > 0, rate = 1 > 0,
period = 2^62 > 0, 0 ≤ cost = 1 ≤ burst) and a stale bucket tat = 0 < now = 1,
the int64 product emissionInterval·burst = 2^64 wraps to 0, the request is
denied, and the returned TAT is the clamped value 1, not the input tat 0. -/
theorem c2_counterexample :
    ComputeRaw 0 1 4 1 4611686018427387904 1 = (1, true, 0, 4611686018427387904, 0)
      ∧ (ComputeRaw 0 1 4 1 4611686018427387904 1).1 ≠ 0 := by decide

/-- C2 (amended): whenever ComputeRaw reports limited = true, the returned TAT
is the clamped input max(tat, now) — equal to the input tat exactly when
now ≤ tat — and re-running ComputeRaw on the clamped value with the same now
yields the identical result, so a repeated denied call returns the identical
denied tuple. -/
theorem c2_denied_keeps_clamped_tat (tat now burst rate period cost : ℤ) :
    ((ComputeRaw tat now burst rate period cost).2.1 = true →
      (ComputeRaw tat now burst rate period cost).1 = if now > tat then now else tat)
    ∧ ComputeRaw (if now > tat then now else tat) now burst rate period cost
        = ComputeRaw tat now burst rate period cost := by
  refine ⟨?_, computeRaw_clamped tat now burst rate period cost⟩
  unfold ComputeRaw
  dsimp only
  split_ifs <;> intro hlim <;> first | rfl | simp_all

theorem c2_witness :
    (ComputeRaw 0 1 4 1 4611686018427387904 1).1 = if (1 : ℤ) > 0 then (1 : ℤ) else 0 :=
  (c2_denied_keeps_clamped_tat 0 1 4 1 4611686018427387904 1).1 (by decide)

/-- C3 counterexample: a zero-cost ComputeRaw on a stale bucket (tat = 0,
now = 5, burst = rate = period = 1) returns the bucket TAT 5, not the input 0:
a zero-cost query does advance a stale stored TAT to now. -/
theorem c3_counterexample :
    ComputeRaw 0 5 1 1 1 0 = (5, false, 1, 0, 0)
      ∧ (ComputeRaw 0 5 1 1 1 0).1 ≠ 0 := by decide

/-- C3 (amended): a zero-cost ComputeRaw returns the clamped TAT max(tat, now)
— the input TAT unchanged exactly when now ≤ tat — and the zero-cost query is
idempotent: re-running it on the returned TAT at the same now yields the
identical tuple, hence identical Results on repetition. -/
theorem c3_zero_cost_clamps (tat now burst rate period : ℤ)
    (ht1 : -(2 ^ 63) ≤ tat) (ht2 : tat < 2 ^ 63)
    (hn1 : -(2 ^ 63) ≤ now) (hn2 : now < 2 ^ 63) :
    (ComputeRaw tat now burst rate period 0).1 = (if now > tat then now else tat)
    ∧ ComputeRaw (if now > tat then now else tat) now burst rate period 0
        = ComputeRaw tat now burst rate period 0 := by
  refine ⟨?_, computeRaw_clamped tat now burst rate period 0⟩
  unfold ComputeRaw
  dsimp only
  set tc := if now > tat then now else tat with htc
  have h0 : wrap (roundDiv period rate * 0) = 0 := by
    rw [mul_zero]
    exact wrap_eq_self (by norm_num) (by norm_num)
  rw [h0, add_zero]
  have hwtc : wrap tc = tc :=
    wrap_eq_self (by rw [htc]; split_ifs <;> omega) (by rw [htc]; split_ifs <;> omega)
  rw [hwtc]
  split_ifs <;> rfl

theorem c3_witness :
    (ComputeRaw 0 5 1 1 1 0).1 = if (5 : ℤ) > 0 then (5 : ℤ) else 0 :=
  (c3_zero_cost_clamps 0 5 1 1 1 (by norm_num) (by norm_num) (by norm_num) (by norm_num)).1

/-- C7 counterexample: a successful (error-free, valid-parameter) Compute on
an over-committed bucket — stored TAT two emission intervals past now + burst
capacity: tat = 2, now = 0, Burst = Rate = Period = 1, cost = 1 — reports
Remaining = -1 < 0. -/
theorem c7_counterexample :
    Compute 0 2 1 ⟨1, 1, 1⟩ = (2, ⟨true, -1, 2, 2⟩, none)
      ∧ (Compute 0 2 1 ⟨1, 1, 1⟩).2.1.Remaining < 0 := by decide

/-- C7 (amended): Remaining, RetryIn and ResetIn are all nonnegative for every
ComputeRaw call with valid parameters and positive emission interval, no int64
overflow (emissionInterval·burst ≤ 2^61, |tat|, |now| ≤ 2^61), and a bucket
that is not over-committed beyond burst capacity (tat ≤ now +
emissionInterval·burst, which holds for every bucket Generate produces at or
before now); an over-committed bucket can make the reported Remaining
negative. -/
theorem c7_result_nonneg (tat now burst rate period cost : ℤ)
    (hei : 1 ≤ roundDiv period rate) (hc : 0 ≤ cost) (hcb : cost ≤ burst)
    (hbb : roundDiv period rate * burst ≤ 2 ^ 61)
    (ht1 : -(2 ^ 61) ≤ tat) (ht2 : tat ≤ 2 ^ 61)
    (hn1 : -(2 ^ 61) ≤ now) (hn2 : now ≤ 2 ^ 61)
    (hover : tat ≤ now + roundDiv period rate * burst) :
    0 ≤ (ComputeRaw tat now burst rate period cost).2.2.1
    ∧ 0 ≤ (ComputeRaw tat now burst rate period cost).2.2.2.1
    ∧ 0 ≤ (ComputeRaw tat now burst rate period cost).2.2.2.2 := by
  rw [computeRaw_eq_Z tat now burst rate period cost (by omega) hc hcb hbb ht1 ht2 hn1 hn2]
  unfold computeRawZ
  dsimp only
  set ei := roundDiv period rate with heid
  set tc := if now > tat then now else tat with htc
  have hic : 0 ≤ ei * cost := mul_nonneg (by omega) hc
  have hicb : ei * cost ≤ ei * burst := mul_le_mul_of_nonneg_left hcb (by omega)
  have htcn : now ≤ tc := by rw [htc]; split_ifs <;> omega
  have htco : tc ≤ now + ei * burst := by rw [htc]; split_ifs <;> omega
  split_ifs with h1 h2 <;> dsimp only
  · refine ⟨roundDiv_nonneg (by omega) (by omega), ?_, by omega⟩
    rcases le_or_lt 0 (now - (tc + ei * cost - ei * burst)) with hd | hd
    · exact absurd (roundDiv_nonneg hd (by omega : (0 : ℤ) ≤ ei)) (by omega)
    · omega
  · exact ⟨le_refl 0, le_refl 0, by omega⟩
  · exact ⟨by omega, le_refl 0, by omega⟩

theorem c7_witness :
    0 ≤ (ComputeRaw 0 0 1 1 1 1).2.2.1 ∧ 0 ≤ (ComputeRaw 0 0 1 1 1 1).2.2.2.1
      ∧ 0 ≤ (ComputeRaw 0 0 1 1 1 1).2.2.2.2 :=
  c7_result_nonneg 0 0 1 1 1 1 (by decide) (by norm_num) (by norm_num) (by decide)
    (by norm_num) (by norm_num) (by norm_num) (by norm_num) (by decide)

/-- C8 counterexample: at tat = now = 2^63 - 1 with Burst = Rate = Period =
cost = 1 the request is allowed and the new TAT computation tat + increment
overflows int64, wrapping to -2^63, strictly below the input tat: the stored
TAT of an allowed call does move backward at the int64 boundary. -/
theorem c8_counterexample :
    ComputeRaw 9223372036854775807 9223372036854775807 1 1 1 1
      = (-9223372036854775808, false, 0, 0, 1)
    ∧ (ComputeRaw 9223372036854775807 9223372036854775807 1 1 1 1).1
        < 9223372036854775807 := by decide

/-- C8 (amended): with valid parameters, positive emission interval, positive
cost and no int64 overflow (emissionInterval·burst ≤ 2^61, |tat|, |now| ≤
2^61), every allowed (limited = false) ComputeRaw call returns a new TAT at
least the input tat; hence along any chain of allowed calls within these
bounds the stored TATs are non-decreasing.  At the int64 boundary the new TAT
wraps and can decrease. -/
theorem c8_allowed_tat_monotone (tat now burst rate period cost : ℤ)
    (hei : 1 ≤ roundDiv period rate) (hc : 1 ≤ cost) (hcb : cost ≤ burst)
    (hbb : roundDiv period rate * burst ≤ 2 ^ 61)
    (ht1 : -(2 ^ 61) ≤ tat) (ht2 : tat ≤ 2 ^ 61)
    (hn1 : -(2 ^ 61) ≤ now) (hn2 : now ≤ 2 ^ 61) :
    (ComputeRaw tat now burst rate period cost).2.1 = false →
      tat ≤ (ComputeRaw tat now burst rate period cost).1 := by
  rw [computeRaw_eq_Z tat now burst rate period cost (by omega) (by omega) hcb hbb
    ht1 ht2 hn1 hn2]
  unfold computeRawZ
  dsimp only
  set ei := roundDiv period rate with heid
  set tc := if now > tat then now else tat with htc
  have hic : 0 ≤ ei * cost := mul_nonneg (by omega) (by omega)
  have htat : tat ≤ tc := by rw [htc]; split_ifs <;> omega
  split_ifs with h1 h2 <;> dsimp only <;> intro hlim
  · simp at hlim
  · simp at hlim
  · omega

theorem c8_witness : (0 : ℤ) ≤ (ComputeRaw 0 0 3 1 1 2).1 :=
  c8_allowed_tat_monotone 0 0 3 1 1 2 (by decide) (by norm_num) (by norm_num) (by decide)
    (by norm_num) (by norm_num) (by norm_num) (by norm_num) (by decide)

/-- C10 counterexample: with a fully replenished bucket (tat = now = 0), valid
parameters burst = 2^53 + 2, rate = period = 1, emission interval 1 and
cost = 1, ComputeRaw allows the request but reports Remaining = 2^53, not
burst - cost = 2^53 + 1: the float64 remaining computation loses the last bit
above 2^53. -/
theorem c10_counterexample :
    ComputeRaw 0 0 9007199254740994 1 1 1 = (1, false, 9007199254740992, 0, 1)
    ∧ (ComputeRaw 0 0 9007199254740994 1 1 1).2.2.1 ≠ 9007199254740994 - 1 := by decide

/-- C10 (amended): for a bucket at or past full replenishment (tat ≤ now),
valid parameters with 1 ≤ cost ≤ burst, positive emission interval and
emissionInterval·burst within the float64-exact range (≤ 2^53, which also
rules out int64 overflow), ComputeRaw always allows the request and returns
exactly (now + emissionInterval·cost, false, burst - cost, 0,
emissionInterval·cost).  Above 2^53 the reported remaining can lose
precision. -/
theorem c10_replenished_allows (tat now burst rate period cost : ℤ)
    (htn : tat ≤ now) (hc : 1 ≤ cost) (hcb : cost ≤ burst)
    (hei : 1 ≤ roundDiv period rate)
    (hbb : roundDiv period rate * burst ≤ 2 ^ 53)
    (ht1 : -(2 ^ 61) ≤ tat) (hn1 : -(2 ^ 61) ≤ now) (hn2 : now ≤ 2 ^ 61) :
    ComputeRaw tat now burst rate period cost
      = (now + roundDiv period rate * cost, false, burst - cost, 0,
          roundDiv period rate * cost) := by
  have h53_61 : (2 ^ 53 : ℤ) ≤ 2 ^ 61 := by norm_num
  rw [computeRaw_eq_Z tat now burst rate period cost (by omega) (by omega) hcb
    (le_trans hbb h53_61) ht1 (by omega) hn1 hn2]
  unfold computeRawZ
  dsimp only
  set ei := roundDiv period rate with heid
  rw [show (if now > tat then now else tat) = now by split_ifs <;> omega]
  rw [show now - (now + ei * cost - ei * burst) = ei * (burst - cost) by ring]
  have hburst1 : 1 ≤ burst := by omega
  have heib : ei ≤ ei * burst := le_mul_of_one_le_right (by omega) hburst1
  have habs : |ei * (burst - cost)| ≤ 2 ^ 53 := by
    rw [abs_of_nonneg (mul_nonneg (by omega) (by omega))]
    have : ei * (burst - cost) ≤ ei * burst := mul_le_mul_of_nonneg_left (by omega) (by omega)
    omega
  have hrem : roundDiv (ei * (burst - cost)) ei = burst - cost := by
    rw [roundDiv_exact ⟨burst - cost, rfl⟩ habs (by omega) (by omega)]
    exact Int.mul_ediv_cancel_left _ (by omega)
  rw [hrem]
  have hpos : 0 < ei * cost := mul_pos (by omega) (by omega)
  split_ifs with h1 h2
  · omega
  · exact absurd h2.2 (by omega)
  · rw [show now + ei * cost - now = ei * cost by ring]

theorem c10_witness : ComputeRaw 0 0 3 1 1 2 = (2, false, 1, 0, 2) := by
  have h := c10_replenished_allows 0 0 3 1 1 2 (by norm_num) (by norm_num) (by norm_num)
    (by decide) (by decide) (by norm_num) (by norm_num) (by norm_num)
  rw [show roundDiv 1 1 = 1 from by decide] at h
  norm_num at h
  exact h

/-- C4: Generate and Compute return the invalid-parameter error exactly when
count/cost < 0 or Burst ≤ 0 or Rate ≤ 0 or Period ≤ 0; otherwise they return
the cost-exceeds-burst error exactly when count/cost exceeds Burst; and in
either error case Compute returns the input bucket unchanged with a zero
Result (no computation is performed). -/
theorem c4_validation (now tat count cost burst rate period : ℤ) :
    ((Generate now count ⟨burst, rate, period⟩).2 = some GcraError.invalidParameter
      ↔ count < 0 ∨ burst ≤ 0 ∨ rate ≤ 0 ∨ period ≤ 0)
    ∧ ((Generate now count ⟨burst, rate, period⟩).2 = some GcraError.costHigherThanBurst
      ↔ ¬(count < 0 ∨ burst ≤ 0 ∨ rate ≤ 0 ∨ period ≤ 0) ∧ burst < count)
    ∧ ((Compute now tat cost ⟨burst, rate, period⟩).2.2 = some GcraError.invalidParameter
      ↔ cost < 0 ∨ burst ≤ 0 ∨ rate ≤ 0 ∨ period ≤ 0)
    ∧ ((Compute now tat cost ⟨burst, rate, period⟩).2.2 = some GcraError.costHigherThanBurst
      ↔ ¬(cost < 0 ∨ burst ≤ 0 ∨ rate ≤ 0 ∨ period ≤ 0) ∧ burst < cost)
    ∧ (∀ e : GcraError, (Compute now tat cost ⟨burst, rate, period⟩).2.2 = some e →
        Compute now tat cost ⟨burst, rate, period⟩ = (tat, ⟨false, 0, 0, 0⟩, some e)) := by
  unfold Generate Compute
  dsimp only
  refine ⟨?_, ?_, ?_, ?_, ?_⟩
  · split_ifs <;> simp_all
  · split_ifs <;> simp_all
  · split_ifs <;> simp_all
  · split_ifs <;> simp_all
  · intro e
    split_ifs <;> intro he <;> simp_all

theorem c4_witness :
    Compute 0 7 2 ⟨1, 1, 1⟩ = (7, ⟨false, 0, 0, 0⟩, some GcraError.costHigherThanBurst) :=
  (c4_validation 0 7 0 2 1 1 1).2.2.2.2 GcraError.costHigherThanBurst (by decide)

/-- C6 counterexample: GenerateRaw wraps on int64 overflow: at now = 0,
count = 0, burst = 2, rate = 1, period = 2^62 ns the formula value
now + emissionInterval·(burst - count) = 2^63 does not fit in int64 and
GenerateRaw returns -2^63 instead. -/
theorem c6_counterexample :
    GenerateRaw 0 0 2 1 4611686018427387904 = -9223372036854775808
    ∧ (0 : ℤ) + roundDiv 4611686018427387904 1 * (2 - 0) = 9223372036854775808
    ∧ GenerateRaw 0 0 2 1 4611686018427387904
        ≠ 0 + roundDiv 4611686018427387904 1 * (2 - 0) := by decide

/-- C6 (amended): GenerateRaw returns exactly now + emissionInterval·(burst -
count) with emissionInterval = roundDiv(period, rate) whenever the
intermediate values fit in int64 (it wraps on overflow); and the seeding
scenario holds exactly: Generate(now, 75, {Burst 100, Rate 10, Period 1s})
followed by Compute(now, bucket, 0, same options) yields Remaining = 75 and
ResetIn = emissionInterval·(Burst - count) = 2.5s. -/
theorem c6_generateRaw_formula :
    (∀ now count burst rate period : ℤ,
      -(2 ^ 61) ≤ now → now ≤ 2 ^ 61 →
      -(2 ^ 62) ≤ burst - count → burst - count < 2 ^ 62 →
      -(2 ^ 61) ≤ roundDiv period rate * (burst - count) →
      roundDiv period rate * (burst - count) ≤ 2 ^ 61 →
      GenerateRaw now count burst rate period
        = now + roundDiv period rate * (burst - count))
    ∧ Generate 0 75 ⟨100, 10, 1000000000⟩ = (2500000000, none)
    ∧ Compute 0 2500000000 0 ⟨100, 10, 1000000000⟩
        = (2500000000, ⟨false, 75, 0, 2500000000⟩, none) := by
  refine ⟨?_, by decide, by decide⟩
  intro now count burst rate period h1 h2 h3 h4 h5 h6
  unfold GenerateRaw
  rw [show wrap (burst - count) = burst - count from wrap_eq_self (by omega) (by omega)]
  rw [show wrap (roundDiv period rate * (burst - count))
      = roundDiv period rate * (burst - count) from wrap_eq_self (by omega) (by omega)]
  exact wrap_eq_self (by omega) (by omega)

theorem c6_witness : GenerateRaw 0 20 100 10 1000000000 = 8000000000 := by
  have h := c6_generateRaw_formula.1 0 20 100 10 1000000000 (by norm_num) (by norm_num)
    (by norm_num) (by norm_num) (by decide) (by decide)
  rw [h, show roundDiv 1000000000 10 = 100000000 from by decide]
  norm_num

/-- C1: the round-trip scenario: with Options{Burst 50, Rate 10, Period 1s}
and a bucket seeded by Generate(now, 25, opts), Compute(cost 10) at now gives
(not limited, remaining 15, retryIn 0, resetIn 3.5s); Compute(cost 30) on the
result at now gives (limited, remaining 15, retryIn 1.5s, resetIn 3.5s);
Compute(cost 15) at now gives (not limited, remaining 0, retryIn 0, resetIn
5s); and Compute(cost 0) at now + 2s gives (not limited, remaining 20,
retryIn 0, resetIn 3s).  The bound on now keeps all times inside int64; it
holds for every realistic Unix-nanosecond clock value. -/
theorem c1_roundtrip (now : ℤ)
    (h1 : -(2 ^ 61) + 10000000000 ≤ now) (h2 : now ≤ 2 ^ 61 - 10000000000) :
    Generate now 25 ⟨50, 10, 1000000000⟩ = (now + 2500000000, none)
    ∧ Compute now (now + 2500000000) 10 ⟨50, 10, 1000000000⟩
        = (now + 3500000000, ⟨false, 15, 0, 3500000000⟩, none)
    ∧ Compute now (now + 3500000000) 30 ⟨50, 10, 1000000000⟩
        = (now + 3500000000, ⟨true, 15, 1500000000, 3500000000⟩, none)
    ∧ Compute now (now + 3500000000) 15 ⟨50, 10, 1000000000⟩
        = (now + 5000000000, ⟨false, 0, 0, 5000000000⟩, none)
    ∧ Compute (now + 2000000000) (now + 5000000000) 0 ⟨50, 10, 1000000000⟩
        = (now + 5000000000, ⟨false, 20, 0, 3000000000⟩, none) := by
  have hrd : roundDiv 1000000000 10 = 100000000 := by decide
  refine ⟨?_, ?_, ?_, ?_, ?_⟩
  · unfold Generate
    dsimp only
    rw [if_neg (by norm_num), if_neg (by norm_num)]
    unfold GenerateRaw
    rw [hrd]
    rw [show wrap (50 - 25 : ℤ) = 25 from by decide]
    rw [show (100000000 : ℤ) * 25 = 2500000000 by norm_num]
    rw [show wrap (2500000000 : ℤ) = 2500000000 from by decide]
    rw [show wrap (now + 2500000000) = now + 2500000000 from
      wrap_eq_self (by omega) (by omega)]
  · unfold Compute
    dsimp only
    rw [if_neg (by norm_num), if_neg (by norm_num)]
    have H := computeRaw_shifted 2500000000 0 now 50 10 1000000000 10
      (by rw [hrd]; norm_num) (by norm_num) (by norm_num) (by rw [hrd]; norm_num)
      (by omega) (by omega) (by omega) (by omega)
    rw [zero_add,
      show computeRawZ 2500000000 0 50 10 1000000000 10
        = (3500000000, false, 15, 0, 3500000000) from by decide] at H
    dsimp only at H
    rw [show now + 2500000000 = 2500000000 + now by ring, H]
    dsimp only
    rw [show (3500000000 : ℤ) + now = now + 3500000000 by ring]
  · unfold Compute
    dsimp only
    rw [if_neg (by norm_num), if_neg (by norm_num)]
    have H := computeRaw_shifted 3500000000 0 now 50 10 1000000000 30
      (by rw [hrd]; norm_num) (by norm_num) (by norm_num) (by rw [hrd]; norm_num)
      (by omega) (by omega) (by omega) (by omega)
    rw [zero_add,
      show computeRawZ 3500000000 0 50 10 1000000000 30
        = (3500000000, true, 15, 1500000000, 3500000000) from by decide] at H
    dsimp only at H
    rw [show now + 3500000000 = 3500000000 + now by ring, H]
  · unfold Compute
    dsimp only
    rw [if_neg (by norm_num), if_neg (by norm_num)]
    have H := computeRaw_shifted 3500000000 0 now 50 10 1000000000 15
      (by rw [hrd]; norm_num) (by norm_num) (by norm_num) (by rw [hrd]; norm_num)
      (by omega) (by omega) (by omega) (by omega)
    rw [zero_add,
      show computeRawZ 3500000000 0 50 10 1000000000 15
        = (5000000000, false, 0, 0, 5000000000) from by decide] at H
    dsimp only at H
    rw [show now + 3500000000 = 3500000000 + now by ring, H]
    dsimp only
    rw [show (5000000000 : ℤ) + now = now + 5000000000 by ring]
  · unfold Compute
    dsimp only
    rw [if_neg (by norm_num), if_neg (by norm_num)]
    have H := computeRaw_shifted 5000000000 2000000000 now 50 10 1000000000 0
      (by rw [hrd]; norm_num) (by norm_num) (by norm_num) (by rw [hrd]; norm_num)
      (by omega) (by omega) (by omega) (by omega)
    rw [show computeRawZ 5000000000 2000000000 50 10 1000000000 0
        = (5000000000, false, 20, 0, 3000000000) from by decide] at H
    dsimp only at H
    rw [show now + 5000000000 = 5000000000 + now by ring,
      show now + 2000000000 = 2000000000 + now by ring, H]

theorem c1_witness :
    Compute 0 2500000000 10 ⟨50, 10, 1000000000⟩
      = (3500000000, ⟨false, 15, 0, 3500000000⟩, none) := by
  have h := (c1_roundtrip 0 (by norm_num) (by norm_num)).2.1
  norm_num at h
  exact h
